import Mathlib

/-!
# Verification of the StudyMate document pipeline

Shallow embedding of the StudyMate repository's core routines and proofs
about them:

* `backend/ingest/pdf_loader.py` — `PDFLoader.chunk_text` (whitespace
  normalization, boundary-aware chunking loop);
* `api_layer/mcq_generator.py` — `MCQGenerator.generate_mcqs` response
  parsing (strict JSON extraction, fallback parser, placeholder);
* `api_layer/revision.py` — `RevisionHelper.generate_flashcards` response
  parsing;
* `backend/retrieval/rag_chain.py` — `RAGChain.retrieve` record assembly;
* `backend/vector_db/chroma_db.py` — `ChromaDBManager.add_documents` id
  generation;
* `api_layer/llm_interface.py` — `GeminiInterface.__init__` credential
  check.

Python strings are modelled as `List Char`; Python `str.find`/`str.rfind`
(returning `-1` on failure) are modelled as `Option Nat` valued searches;
the unbounded `while` loop of `chunk_text` is modelled with explicit fuel,
`none` meaning the loop did not finish within the given fuel.
-/

namespace StudyMate

/-! ## Generic string primitives (Python `str` operations on `List Char`) -/

/-- Whitespace test used both for the regex `\s` and for `str.strip`. -/
def isWs (c : Char) : Bool := c.isWhitespace

/-- Python `s[a:b]` for `0 ≤ a`, `0 ≤ b` (indices clamp to the length). -/
def pySlice (l : List Char) (a b : Nat) : List Char := (l.take b).drop a

/-- The last `n` characters of a string (all of it when shorter). -/
def lastN (n : Nat) (l : List Char) : List Char := l.drop (l.length - n)

/-- Python `str.lstrip()` restricted to whitespace. -/
def lstripChars (l : List Char) : List Char := l.dropWhile isWs

/-- Python `str.rstrip()` restricted to whitespace. -/
def rstripChars (l : List Char) : List Char := (l.reverse.dropWhile isWs).reverse

/-- Python `str.strip()`. -/
def stripChars (l : List Char) : List Char := rstripChars (lstripChars l)

/-- Scan `n, n-1, …, 0` and return the first (i.e. largest) index satisfying
`p`, as Python's `rfind` family does. -/
def findTop (p : Nat → Bool) : Nat → Option Nat
  | 0 => if p 0 then some 0 else none
  | n + 1 => if p (n + 1) then some (n + 1) else findTop p n

/-- Scan `i, i+1, …, i+k-1` and return the first index satisfying `p`, as
Python's `find` family does. -/
def findFrom (p : Nat → Bool) (i : Nat) : Nat → Option Nat
  | 0 => none
  | k + 1 => if p i then some i else findFrom p (i + 1) k

/-- Python `text.rfind(c, a, b)` for a single character `c`: the largest
index `i` with `a ≤ i < min b (length text)` and `text[i] = c`, `none`
standing for Python's `-1`. -/
def rfindChar (t : List Char) (c : Char) (a b : Nat) : Option Nat :=
  let hi := min b t.length
  if hi = 0 then none else findTop (fun i => a ≤ i && (t[i]? == some c)) (hi - 1)

/-- Python `max` over `int` results of `rfind`, where `none` stands for `-1`. -/
def omax : Option Nat → Option Nat → Option Nat
  | none, b => b
  | some x, none => some x
  | some x, some y => some (max x y)

/-- Python `haystack.find(needle)`: smallest index at which `needle` occurs,
`none` standing for `-1`. -/
def pyFindSub (l sub : List Char) : Option Nat :=
  findFrom (fun i => sub.isPrefixOf (l.drop i)) 0 (l.length + 1)

/-- Python `haystack.rfind(needle)`: largest index at which `needle` occurs,
`none` standing for `-1`. -/
def pyRfindSub (l sub : List Char) : Option Nat :=
  findTop (fun i => sub.isPrefixOf (l.drop i)) l.length

/-- Python `needle in haystack`. -/
def containsSub (l sub : List Char) : Bool := (pyFindSub l sub).isSome

/-- One step of Python `str.split(sep)` (auxiliary, fuelled recursion). -/
def splitOnSubGo (sep : List Char) : Nat → List Char → List (List Char)
  | 0, l => [l]
  | fuel + 1, l =>
    match pyFindSub l sep with
    | none => [l]
    | some i => l.take i :: splitOnSubGo sep fuel (l.drop (i + sep.length))

/-- Python `str.split(sep)` for a non-empty separator `sep`. -/
def splitOnSub (l sep : List Char) : List (List Char) :=
  splitOnSubGo sep (l.length + 1) l

/-- Python string `<` (lexicographic on code points). -/
def lexLt : List Char → List Char → Bool
  | [], [] => false
  | [], _ :: _ => true
  | _ :: _, [] => false
  | a :: as, b :: bs => if a = b then lexLt as bs else decide (a < b)

/-- Python string `>`. -/
def lexGt (a b : List Char) : Bool := lexLt b a

/-- Python `str.lower()` (character-wise). -/
def lowerL (l : List Char) : List Char := l.map Char.toLower

/-! ## `PDFLoader.chunk_text` (src/backend/ingest/pdf_loader.py, lines 160-209)

The Python code first normalizes whitespace
(`re.sub(r'\s+', ' ', text).strip()`), returns the whole text as a single
chunk when it fits in `chunk_size`, and otherwise runs a sliding-window
loop that tries to end each window at a sentence terminator or a space. -/

/-- `re.sub(r'\s+', ' ', text)`: every maximal run of whitespace becomes a
single space.  The boolean state records whether the previous character was
part of a whitespace run. -/
def collapseGo : Bool → List Char → List Char
  | _, [] => []
  | prevWs, c :: cs =>
    if isWs c then
      if prevWs then collapseGo true cs else ' ' :: collapseGo true cs
    else c :: collapseGo false cs

/-- `re.sub(r'\s+', ' ', text)`. -/
def collapseWs (l : List Char) : List Char := collapseGo false l

/-- `re.sub(r'\s+', ' ', text).strip()` — the normalization performed at the
top of `chunk_text`. -/
def normalizeText (l : List Char) : List Char := stripChars (collapseWs l)

/-- `max(text.rfind('.', start, end), text.rfind('?', start, end),
text.rfind('!', start, end))` (pdf_loader.py lines 188-190). -/
def lastPeriodIdx (t : List Char) (a b : Nat) : Option Nat :=
  omax (rfindChar t '.' a b) (omax (rfindChar t '?' a b) (rfindChar t '!' a b))

/-- The window-end computation of one `chunk_text` iteration
(pdf_loader.py lines 182-199).  Returns the final `end` together with a
flag recording whether a sentence-terminator or space boundary adjustment
was applied. -/
def computeEnd (t : List Char) (cs start : Nat) : Nat × Bool :=
  let e0 := start + cs
  if e0 < t.length then
    match lastPeriodIdx t start e0 with
    | some p =>
      if start + cs / 2 < p then (p + 1, true)
      else
        match rfindChar t ' ' start e0 with
        | some sp => (sp + 1, true)
        | none => (e0, false)
    | none =>
      match rfindChar t ' ' start e0 with
      | some sp => (sp + 1, true)
      | none => (e0, false)
  else (e0, false)

/-- `start = end - overlap; if start < 0: start = 0` — note that truncated
`Nat` subtraction is exactly the Python clamp to `0`. -/
def nextStart (t : List Char) (cs ov start : Nat) : Nat :=
  (computeEnd t cs start).1 - ov

/-- The `while start < len(text)` loop of `chunk_text`
(pdf_loader.py lines 181-207), with explicit fuel; `none` means the loop
did not finish within `fuel` iterations. -/
def chunkLoop (t : List Char) (cs ov : Nat) : Nat → Nat → Option (List (List Char))
  | 0, _ => none
  | fuel + 1, start =>
    if start < t.length then
      let e := computeEnd t cs start
      match chunkLoop t cs ov fuel (e.1 - ov) with
      | some rest => some (stripChars (pySlice t start e.1) :: rest)
      | none => none
    else some []

/-- `PDFLoader.chunk_text` (pdf_loader.py lines 160-209). -/
def chunk_text (t : List Char) (cs ov fuel : Nat) : Option (List (List Char)) :=
  let n := normalizeText t
  if n.length ≤ cs then some [n] else chunkLoop n cs ov fuel 0

/-! Spec-side description of the normalization, for the refinement part of
the whitespace-normalization claim. -/

/-- Modelled from the spec: the maximal whitespace-separated words of a
string (auxiliary; `acc` holds the reversed word in progress). -/
def wordsGo (acc : List Char) : List Char → List (List Char)
  | [] => if acc = [] then [] else [acc.reverse]
  | c :: cs =>
    if isWs c then
      if acc = [] then wordsGo [] cs else acc.reverse :: wordsGo [] cs
    else wordsGo (c :: acc) cs

/-- Modelled from the spec: the whitespace-separated words of a string. -/
def wsWords (l : List Char) : List (List Char) := wordsGo [] l

/-- Modelled from the spec: join words with single spaces. -/
def joinWords : List (List Char) → List Char
  | [] => []
  | [w] => w
  | w :: ws => w ++ ' ' :: joinWords ws

/-- Modelled from the spec: "collapse every run of whitespace to a single
space and trim both ends" — i.e. the whitespace-separated words joined by
single spaces. -/
def wsNormSpec (l : List Char) : List Char := joinWords (wsWords l)

/-! ## JSON values and `json.loads`

`MCQGenerator.generate_mcqs` and `RevisionHelper.generate_flashcards` call
`json.loads` on the substring between the first `[{` and the last `}]`.
`json.loads` is standard-library code, modelled here as a recursive-descent
parser over a JSON fragment (null/true/false, integers, strings with the
common escapes, arrays, objects); a raised `JSONDecodeError` is modelled
as `none`. -/

inductive Json where
  | null : Json
  | bool (b : Bool) : Json
  | num (n : Int) : Json
  | str (s : List Char) : Json
  | arr (xs : List Json) : Json
  | obj (kvs : List (List Char × Json)) : Json

/-- JSON inter-token whitespace. -/
def jsonSkipWs (l : List Char) : List Char :=
  l.dropWhile (fun c => c = ' ' || c = '\t' || c = '\n' || c = '\r')

/-- JSON string escapes (`\uXXXX` is not modelled; the parser rejects it). -/
def unescape (c : Char) : Option Char :=
  if c = 'n' then some '\n'
  else if c = 't' then some '\t'
  else if c = 'r' then some '\r'
  else if c = '"' then some '"'
  else if c = '\\' then some '\\'
  else if c = '/' then some '/'
  else if c = 'b' then some (Char.ofNat 8)
  else if c = 'f' then some (Char.ofNat 12)
  else none

/-- Parse the body of a JSON string (the opening quote already consumed). -/
def parseStr : List Char → Option (List Char × List Char)
  | [] => none
  | '"' :: rest => some ([], rest)
  | '\\' :: rest =>
    match rest with
    | [] => none
    | e :: rest2 =>
      match unescape e, parseStr rest2 with
      | some c, some (s, r) => some (c :: s, r)
      | _, _ => none
  | c :: rest =>
    match parseStr rest with
    | some (s, r) => some (c :: s, r)
    | none => none

/-- Parse a non-empty digit run into a natural number. -/
def parseDigits (acc : Nat) : List Char → (Nat × List Char)
  | [] => (acc, [])
  | c :: rest =>
    if c.isDigit then parseDigits (acc * 10 + (c.toNat - 48)) rest
    else (acc, c :: rest)

mutual

/-- Parse one JSON value; `fuel` bounds the nesting work. -/
def parseVal : Nat → List Char → Option (Json × List Char)
  | 0, _ => none
  | fuel + 1, s =>
    match jsonSkipWs s with
    | [] => none
    | c :: rest =>
      if c = 'n' then
        match rest with
        | 'u' :: 'l' :: 'l' :: r => some (.null, r)
        | _ => none
      else if c = 't' then
        match rest with
        | 'r' :: 'u' :: 'e' :: r => some (.bool true, r)
        | _ => none
      else if c = 'f' then
        match rest with
        | 'a' :: 'l' :: 's' :: 'e' :: r => some (.bool false, r)
        | _ => none
      else if c = '"' then
        match parseStr rest with
        | some (str, r) => some (.str str, r)
        | none => none
      else if c = '-' then
        match rest with
        | d :: _ =>
          if d.isDigit then
            let (n, r) := parseDigits 0 rest
            some (.num (-(n : Int)), r)
          else none
        | [] => none
      else if c.isDigit then
        let (n, r) := parseDigits 0 (c :: rest)
        some (.num (n : Int), r)
      else if c = '[' then
        match jsonSkipWs rest with
        | ']' :: r => some (.arr [], r)
        | r2 => match parseElems fuel r2 with
                | some (xs, r) => some (.arr xs, r)
                | none => none
      else if c = '{' then
        match jsonSkipWs rest with
        | '}' :: r => some (.obj [], r)
        | r2 => match parseMembers fuel r2 with
                | some (kvs, r) => some (.obj kvs, r)
                | none => none
      else none

/-- Parse `value (',' value)* ']'`. -/
def parseElems : Nat → List Char → Option (List Json × List Char)
  | 0, _ => none
  | fuel + 1, s =>
    match parseVal fuel s with
    | none => none
    | some (v, r) =>
      match jsonSkipWs r with
      | ',' :: r2 =>
        match parseElems fuel r2 with
        | some (xs, r3) => some (v :: xs, r3)
        | none => none
      | ']' :: r2 => some ([v], r2)
      | _ => none

/-- Parse `string ':' value (',' string ':' value)* '}'`. -/
def parseMembers : Nat → List Char → Option (List (List Char × Json) × List Char)
  | 0, _ => none
  | fuel + 1, s =>
    match jsonSkipWs s with
    | '"' :: rest =>
      match parseStr rest with
      | none => none
      | some (k, r) =>
        match jsonSkipWs r with
        | ':' :: r2 =>
          match parseVal fuel r2 with
          | none => none
          | some (v, r3) =>
            match jsonSkipWs r3 with
            | ',' :: r4 =>
              match parseMembers fuel r4 with
              | some (kvs, r5) => some ((k, v) :: kvs, r5)
              | none => none
            | '}' :: r4 => some ([(k, v)], r4)
            | _ => none
        | _ => none
    | _ => none

end

/-- `json.loads`: parse a full JSON document, allowing surrounding
whitespace, failing (`none`, i.e. `JSONDecodeError`) on anything left
over. -/
def jsonLoads (s : List Char) : Option Json :=
  match parseVal (2 * s.length + 4) s with
  | some (v, r) => if jsonSkipWs r = [] then some v else none
  | none => none

/-! ## `MCQGenerator.generate_mcqs` response processing
(src/api_layer/mcq_generator.py, lines 36-85)

The model response is scanned for a `[{ … }]` JSON span; failing that, a
heuristic fallback splits the response into paragraphs and extracts
question/option blocks; an exception during parsing yields a fixed
placeholder list.  The function below is the embedding of that processing
given the LLM response text; its result is the returned Python value as a
`Json` value. -/

/-- The fixed placeholder question record (mcq_generator.py lines 80-85). -/
def mcqPlaceholder : Json :=
  .obj [(("question".data), .str ("Failed to parse questions properly. Please try again.".data)),
        (("options".data), .arr [.str ("A. Try again".data), .str ("B. Use different content".data),
                                 .str ("C. Adjust parameters".data), .str ("D. Contact support".data)]),
        (("correct_answer".data), .str ("A".data)),
        (("explanation".data), .str ("There was an error processing the AI response.".data))]

/-- The option labels `["A.", "B.", "C.", "D."]`. -/
def optLabels : List (List Char) := [("A.".data), ("B.".data), ("C.".data), ("D.".data)]

/-- The option-text extraction for one label `opt` inside `options_text`
(mcq_generator.py lines 55-60). -/
def extractOpt (options_text opt : List Char) : Option (List Char) :=
  if containsSub options_text opt then
    let opt_start := (pyFindSub options_text opt).getD 0
    let next_opt := (optLabels.filter (fun o => lexGt o opt && containsSub options_text o)).head?
    let opt_end :=
      match next_opt with
      | some o => (pyFindSub options_text o).getD 0
      | none => options_text.length
    some (stripChars (pySlice options_text opt_start opt_end))
  else none

/-- The correct-answer heuristic (mcq_generator.py lines 62-68). -/
def detectCorrect (q : List Char) : List Char :=
  if containsSub (lowerL q) ("correct".data) then
    match ([("A".data), ("B".data), ("C".data), ("D".data)].find?
        (fun o => containsSub (lowerL q) (("correct answer is ".data) ++ o)
               || containsSub (lowerL q) (("correct: ".data) ++ o))) with
    | some o => o
    | none => "A".data
  else "A".data

/-- One paragraph of the fallback parser (mcq_generator.py lines 49-75):
`none` when the paragraph is skipped. -/
def mcqFallbackPara (q : List Char) : Option Json :=
  if containsSub q ("?".data) && containsSub q ("A.".data) && containsSub q ("B.".data) then
    let parts := splitOnSub q ("?".data)
    let question := parts.headD [] ++ ("?".data)
    let options_text := (parts.drop 1).headD []
    let options := optLabels.filterMap (extractOpt options_text)
    let correct := detectCorrect q
    some (.obj [(("question".data), .str (stripChars question)),
                (("options".data), .arr (options.map .str)),
                (("correct_answer".data), .str correct),
                (("explanation".data), .str ("Explanation not available in parsed format".data))])
  else none

/-- The fallback parser (mcq_generator.py lines 46-76). -/
def mcqFallback (response : List Char) (numQuestions : Nat) : List Json :=
  ((splitOnSub response ("\n\n".data)).take numQuestions).filterMap mcqFallbackPara

/-- `MCQGenerator.generate_mcqs` response processing
(mcq_generator.py lines 36-85): the value returned to the caller, given
the raw model response. -/
def generate_mcqs (response : List Char) (numQuestions : Nat) : Json :=
  match pyFindSub response ("[\x7b".data), pyRfindSub response ("\x7d]".data) with
  | some p, some q =>
    if p < q + 2 then
      match jsonLoads (pySlice response p (q + 2)) with
      | some v => v
      | none => .arr [mcqPlaceholder]
    else .arr (mcqFallback response numQuestions)
  | some p, none =>
    if p < 1 then
      match jsonLoads (pySlice response p 1) with
      | some v => v
      | none => .arr [mcqPlaceholder]
    else .arr (mcqFallback response numQuestions)
  | none, _ => .arr (mcqFallback response numQuestions)

/-! ## `RevisionHelper.generate_flashcards` response processing
(src/api_layer/revision.py, lines 34-69) -/

/-- The fixed placeholder flashcard (revision.py lines 66-69). -/
def flashPlaceholder : Json :=
  .obj [(("front".data), .str ("Failed to parse flashcards properly. Please try again.".data)),
        (("back".data), .str ("There was an error processing the AI response.".data))]

/-- `line.split(":", 1)[1].strip()` for a line known to contain `':'`. -/
def afterColon (line : List Char) : List Char :=
  stripChars ((line.dropWhile (fun c => c ≠ ':')).drop 1)

/-- One paragraph of the flashcard fallback parser (revision.py lines
48-60): `none` when the paragraph is skipped. -/
def flashFallbackPara (card : List Char) : Option Json :=
  if containsSub (lowerL card) ("front".data) && containsSub (lowerL card) ("back".data) then
    let lines := splitOnSub card ("\n".data)
    let fb := lines.foldl
      (fun (fb : List Char × List Char) line =>
        if containsSub (lowerL line) ("front:".data) then (afterColon line, fb.2)
        else if containsSub (lowerL line) ("back:".data) then (fb.1, afterColon line)
        else fb)
      ([], [])
    if fb.1 ≠ [] && fb.2 ≠ [] then
      some (.obj [(("front".data), .str fb.1), (("back".data), .str fb.2)])
    else none
  else none

/-- The flashcard fallback parser (revision.py lines 45-62). -/
def flashFallback (response : List Char) (numCards : Nat) : List Json :=
  ((splitOnSub response ("\n\n".data)).take numCards).filterMap flashFallbackPara

/-- `RevisionHelper.generate_flashcards` response processing
(revision.py lines 34-69): the value returned to the caller, given the
raw model response. -/
def generate_flashcards (response : List Char) (numCards : Nat) : Json :=
  match pyFindSub response ("[\x7b".data), pyRfindSub response ("\x7d]".data) with
  | some p, some q =>
    if p < q + 2 then
      match jsonLoads (pySlice response p (q + 2)) with
      | some v => v
      | none => .arr [flashPlaceholder]
    else .arr (flashFallback response numCards)
  | some p, none =>
    if p < 1 then
      match jsonLoads (pySlice response p 1) with
      | some v => v
      | none => .arr [flashPlaceholder]
    else .arr (flashFallback response numCards)
  | none, _ => .arr (flashFallback response numCards)

/-- The strict-extraction precondition both parsers test
(`find('[{') ≥ 0` and `rfind('}]')` strictly after it): the response
contains a `[{` occurrence followed later by a `}]` occurrence. -/
def hasJsonSpan (l : List Char) : Bool :=
  match pyFindSub l ("[\x7b".data), pyRfindSub l ("\x7d]".data) with
  | some p, some q => decide (p < q)
  | _, _ => false

/-! ## `RAGChain.retrieve` (src/backend/retrieval/rag_chain.py, lines 30-51)

The vector store (`ChromaDBManager.query_collection`, an external client
call) returns a dictionary of parallel per-query lists; `retrieve` walks
`results["ids"][0]` by index and builds one record per hit.  The store's
reply is modelled abstractly; `α` is the distance type (a float in the
source) and `μ` the metadata-dictionary type.  Failed list indexing
(`IndexError`) is modelled as `none`. -/

structure QueryResults (α μ : Type) where
  ids : List (List String)
  documents : List (List String)
  metadatas : Option (List (List μ))
  distances : List (List α)

structure RetrievedDoc (α μ : Type) where
  id : String
  document : String
  metadata : Option μ
  distance : α
deriving DecidableEq

/-- `results["metadatas"][0][i] if results["metadatas"] else {}` — Python
falsiness covers both `None` and the empty list; `none` in the result's
second layer stands for the empty dict `{}`; outer `none` is an
`IndexError`. -/
def metaLookup {μ : Type} (mds : Option (List (List μ))) (i : Nat) : Option (Option μ) :=
  match mds with
  | none => some none
  | some [] => some none
  | some (m0 :: _) => (m0[i]?).map some

/-- `for i in range(k): acc.append(f i)`, where `f` may raise
(`none`). -/
def collectRange {β : Type} (f : Nat → Option β) : Nat → Option (List β)
  | 0 => some []
  | k + 1 =>
    match collectRange f k, f k with
    | some acc, some b => some (acc ++ [b])
    | _, _ => none

/-- Build the record for index `i` (rag_chain.py lines 44-49); each failed
list access is an `IndexError`. -/
def buildDoc {α μ : Type} (res : QueryResults α μ) (i : Nat) : Option (RetrievedDoc α μ) :=
  (res.ids[0]?).bind fun ids0 =>
    (res.documents[0]?).bind fun docs0 =>
      (res.distances[0]?).bind fun dists0 =>
        (ids0[i]?).bind fun id =>
          (docs0[i]?).bind fun doc =>
            (metaLookup res.metadatas i).bind fun md =>
              (dists0[i]?).bind fun dist =>
                some { id := id, document := doc, metadata := md, distance := dist }

/-- `RAGChain.retrieve` (rag_chain.py lines 30-51), given the store's
reply: one record per element of `results["ids"][0]`, in order. -/
def retrieve {α μ : Type} (res : QueryResults α μ) : Option (List (RetrievedDoc α μ)) :=
  match res.ids[0]? with
  | none => none
  | some ids0 => collectRange (buildDoc res) ids0.length

/-! ## `ChromaDBManager.add_documents` id generation
(src/backend/vector_db/chroma_db.py, lines 61-63) -/

/-- `ids = [f"doc_{i}" for i in range(len(documents))]`. -/
def genIds (n : Nat) : List String :=
  (List.range n).map (fun i => "doc_" ++ toString i)

/-- The document ids actually passed to `collection.add`: the caller's
list when supplied, otherwise the generated `doc_{i}` scheme. -/
def effectiveIds (ids : Option (List String)) (documents : List String) : List String :=
  match ids with
  | some l => l
  | none => genIds documents.length

/-! ## `GeminiInterface.__init__` (src/api_layer/llm_interface.py, lines 8-16)

`os.getenv` returns `None` when the variable is unset; `if not api_key`
is true for `None` and for the empty string.  The constructor either
raises `ValueError` (modelled as `.error`) before any model call, or
records the configured key. -/

def geminiInit (env : Option String) : Except String String :=
  match env with
  | none => .error ("GEMINI_API_KEY environment variable not set")
  | some k => if k = "" then .error ("GEMINI_API_KEY environment variable not set") else .ok k

/-! ## Lemmas: search primitives -/

theorem findTop_eq_some {p : Nat → Bool} {n j : Nat} (h : findTop p n = some j) :
    p j = true ∧ j ≤ n ∧ ∀ m, j < m → m ≤ n → p m = false := by
  induction n with
  | zero =>
    by_cases hp : p 0 = true
    · simp [findTop, hp] at h
      subst h
      exact ⟨hp, le_rfl, by omega⟩
    · simp [findTop, Bool.not_eq_true] at hp
      simp [findTop, hp] at h
  | succ n ih =>
    by_cases hp : p (n + 1) = true
    · simp [findTop, hp] at h
      subst h
      exact ⟨hp, le_rfl, by omega⟩
    · simp [findTop, Bool.not_eq_true] at hp
      simp [findTop, hp] at h
      obtain ⟨h1, h2, h3⟩ := ih h
      refine ⟨h1, by omega, fun m hm hm2 => ?_⟩
      rcases Nat.lt_or_ge m (n + 1) with hlt | hge
      · exact h3 m hm (by omega)
      · have : m = n + 1 := by omega
        simpa [this] using hp

theorem findTop_eq_none {p : Nat → Bool} {n : Nat} (h : findTop p n = none) :
    ∀ m, m ≤ n → p m = false := by
  induction n with
  | zero =>
    intro m hm
    interval_cases m
    by_cases hp : p 0 = true
    · simp [findTop, hp] at h
    · simpa [Bool.not_eq_true] using hp
  | succ n ih =>
    intro m hm
    by_cases hp : p (n + 1) = true
    · simp [findTop, hp] at h
    · simp [findTop, Bool.not_eq_true] at hp
      simp [findTop, hp] at h
      rcases Nat.lt_or_ge m (n + 1) with hlt | hge
      · exact ih h m (by omega)
      · have : m = n + 1 := by omega
        simpa [this] using hp

theorem findTop_isSome {p : Nat → Bool} {n j : Nat} (hj : j ≤ n) (hp : p j = true) :
    (findTop p n).isSome = true := by
  cases hmatch : findTop p n with
  | some v => rfl
  | none => exact absurd (findTop_eq_none hmatch j hj) (by simp [hp])

theorem findFrom_eq_some {p : Nat → Bool} {k : Nat} :
    ∀ {i j : Nat}, findFrom p i k = some j →
    p j = true ∧ i ≤ j ∧ j < i + k ∧ ∀ m, i ≤ m → m < j → p m = false := by
  induction k with
  | zero => intro i j h; simp [findFrom] at h
  | succ k ih =>
    intro i j h
    by_cases hp : p i = true
    · simp [findFrom, hp] at h
      subst h
      exact ⟨hp, le_rfl, by omega, by omega⟩
    · simp [findFrom, Bool.not_eq_true] at hp
      simp [findFrom, hp] at h
      obtain ⟨h1, h2, h3, h4⟩ := ih h
      refine ⟨h1, by omega, by omega, fun m hm hm2 => ?_⟩
      rcases Nat.lt_or_ge m (i + 1) with hlt | hge
      · have : m = i := by omega
        simpa [this] using hp
      · exact h4 m hge hm2

theorem findFrom_isSome {p : Nat → Bool} {k : Nat} :
    ∀ {i j : Nat}, i ≤ j → j < i + k → p j = true → (findFrom p i k).isSome = true := by
  induction k with
  | zero => intro i j h1 h2; omega
  | succ k ih =>
    intro i j h1 h2 hp
    by_cases hpi : p i = true
    · simp [findFrom, hpi]
    · simp [findFrom, Bool.not_eq_true] at hpi
      simp [findFrom, hpi]
      have hij : i ≠ j := fun h => by subst h; simp [hpi] at hp
      exact ih (by omega) (by omega) hp

theorem findFrom_eq_none {p : Nat → Bool} {i k : Nat} (h : findFrom p i k = none) :
    ∀ m, i ≤ m → m < i + k → p m = false := by
  intro m h1 h2
  by_cases hp : p m = true
  · have := findFrom_isSome h1 h2 hp
    simp [h] at this
  · simpa [Bool.not_eq_true] using hp

/-! ## Lemmas: `isPrefixOf` and occurrences -/

theorem isPrefixOf_eq_take {a : List Char} :
    ∀ {b : List Char}, a.isPrefixOf b = true ↔ b.take a.length = a := by
  induction a with
  | nil => intro b; simp [List.isPrefixOf]
  | cons x xs ih =>
    intro b
    cases b with
    | nil => simp [List.isPrefixOf]
    | cons y ys => simp [List.isPrefixOf, ih, eq_comm (a := y) (b := x)]

theorem isPrefixOf_length_le {a b : List Char} (h : a.isPrefixOf b = true) :
    a.length ≤ b.length := by
  have := isPrefixOf_eq_take.mp h
  have hl : (b.take a.length).length = a.length := by rw [this]
  simp at hl
  omega

theorem isPrefixOf_refl (a : List Char) : a.isPrefixOf a = true := by
  rw [isPrefixOf_eq_take]
  simp

theorem isPrefixOf_of_take {a b : List Char} {n : Nat}
    (h : a.isPrefixOf (b.take n) = true) : a.isPrefixOf b = true := by
  rw [isPrefixOf_eq_take] at h ⊢
  rw [List.take_take] at h
  have hle : a.length ≤ n := by
    by_contra hgt
    have : min a.length n = n := by omega
    rw [this] at h
    have : (b.take n).length = a.length := by rw [h]
    simp at this
    omega
  rwa [min_eq_left hle] at h

/-- The characters of an occurrence: if `sub` occurs in `l` at `i`, the
character of `l` at `i + k` is the character of `sub` at `k`. -/
theorem getElem?_of_occurrence {l sub : List Char} {i : Nat}
    (h : sub.isPrefixOf (l.drop i) = true) {k : Nat} (hk : k < sub.length) :
    l[i + k]? = sub[k]? := by
  have ht := isPrefixOf_eq_take.mp h
  have : sub[k]? = ((l.drop i).take sub.length)[k]? := by rw [ht]
  rw [this, List.getElem?_take_of_lt hk, List.getElem?_drop]

theorem containsSub_iff {l sub : List Char} :
    containsSub l sub = true ↔ ∃ i, sub.isPrefixOf (l.drop i) = true := by
  constructor
  · intro h
    rw [containsSub, Option.isSome_iff_exists] at h
    obtain ⟨j, hj⟩ := h
    exact ⟨j, (findFrom_eq_some hj).1⟩
  · rintro ⟨i, hi⟩
    rcases Nat.lt_or_ge l.length i with hgt | hle
    · rw [List.drop_eq_nil_of_le (by omega)] at hi
      have : sub = [] := by
        cases sub with
        | nil => rfl
        | cons x xs => simp [List.isPrefixOf] at hi
      subst this
      exact findFrom_isSome (i := 0) (j := 0) le_rfl (by omega) (by simp [List.isPrefixOf])
    · exact findFrom_isSome (i := 0) (j := i) (by omega) (by omega) hi

theorem containsSub_take {l sub : List Char} {n : Nat}
    (h : containsSub (l.take n) sub = true) : containsSub l sub = true := by
  rw [containsSub_iff] at h ⊢
  obtain ⟨i, hi⟩ := h
  rw [List.drop_take] at hi
  exact ⟨i, isPrefixOf_of_take hi⟩

theorem containsSub_drop {l sub : List Char} {n : Nat}
    (h : containsSub (l.drop n) sub = true) : containsSub l sub = true := by
  rw [containsSub_iff] at h ⊢
  obtain ⟨i, hi⟩ := h
  rw [List.drop_drop] at hi
  exact ⟨n + i, hi⟩

theorem containsSub_of_mem_splitOnSubGo {sub sep : List Char} {fuel : Nat} :
    ∀ {l q : List Char}, q ∈ splitOnSubGo sep fuel l →
    containsSub q sub = true → containsSub l sub = true := by
  induction fuel with
  | zero =>
    intro l q hq hsub
    simp [splitOnSubGo] at hq
    rwa [hq] at hsub
  | succ fuel ih =>
    intro l q hq hsub
    rw [splitOnSubGo] at hq
    cases hfind : pyFindSub l sep with
    | none =>
      rw [hfind] at hq
      simp at hq
      rwa [hq] at hsub
    | some i =>
      rw [hfind] at hq
      rcases List.mem_cons.mp hq with h | h
      · subst h
        exact containsSub_take hsub
      · exact containsSub_drop (ih h hsub)

/-- Pieces of `str.split` contain no substring the whole string lacks. -/
theorem containsSub_of_mem_splitOnSub {l sep sub q : List Char}
    (hq : q ∈ splitOnSub l sep) (hsub : containsSub q sub = true) :
    containsSub l sub = true :=
  containsSub_of_mem_splitOnSubGo hq hsub

/-! ## Lemmas: stripping -/

theorem dropWhile_eq_drop_length (p : Char → Bool) (l : List Char) :
    l.dropWhile p = l.drop (l.takeWhile p).length := by
  induction l with
  | nil => rfl
  | cons c cs ih =>
    by_cases hp : p c = true
    · simpa [List.dropWhile, List.takeWhile, hp] using ih
    · simp [List.dropWhile, List.takeWhile, hp]

theorem rstripChars_eq_take (l : List Char) :
    rstripChars l = l.take (l.length - (l.reverse.takeWhile isWs).length) := by
  rw [rstripChars, dropWhile_eq_drop_length, List.drop_reverse, List.reverse_reverse]

theorem length_takeWhile_le' (p : Char → Bool) (l : List Char) :
    (l.takeWhile p).length ≤ l.length := by
  induction l with
  | nil => simp
  | cons c cs ih =>
    rw [List.takeWhile_cons]
    by_cases hp : p c = true
    · simpa [hp] using ih
    · simp [hp]

theorem getElem?_takeWhile (p : Char → Bool) :
    ∀ (y : List Char) (i : Nat) (c : Char),
    (y.takeWhile p)[i]? = some c → y[i]? = some c := by
  intro y
  induction y with
  | nil => simp
  | cons a as ih =>
    intro i c h
    rw [List.takeWhile_cons] at h
    by_cases hp : p a = true
    · rw [if_pos hp] at h
      cases i with
      | zero => simpa using h
      | succ j => simpa using ih j c (by simpa using h)
    · rw [if_neg hp] at h
      simp at h

theorem takeWhile_index_ws {y : List Char} {i : Nat} {c : Char}
    (h : i < (y.takeWhile isWs).length) (hc : y[i]? = some c) : isWs c = true := by
  cases hd : (y.takeWhile isWs)[i]? with
  | none =>
    rw [List.getElem?_eq_none_iff] at hd
    omega
  | some d =>
    have hyd := getElem?_takeWhile isWs y i d hd
    rw [hc] at hyd
    injection hyd with hyd
    subst hyd
    exact List.mem_takeWhile_imp (List.getElem?_mem hd)

theorem takeWhile_ws_reverse_bound {l : List Char} {k : Nat} (hk : k ≤ l.length)
    (h : ∀ c ∈ l.take k, isWs c = false) :
    (l.reverse.takeWhile isWs).length ≤ l.length - k := by
  by_contra hgt
  push_neg at hgt
  have hwlen : (l.reverse.takeWhile isWs).length ≤ l.length := by
    have := length_takeWhile_le' isWs l.reverse
    simpa using this
  rcases Nat.eq_zero_or_pos k with hk0 | hkpos
  · subst hk0
    omega
  · have hidx : l.length - k < (l.reverse.takeWhile isWs).length := by omega
    -- the element of `l.reverse` at `l.length - k` is `l[k-1]` …
    have hrevget : l.reverse[l.length - k]? = l[k - 1]? := by
      rw [List.getElem?_reverse (by simp; omega)]
      congr 1
      omega
    cases hcel : l[k - 1]? with
    | none =>
      rw [List.getElem?_eq_none_iff] at hcel
      omega
    | some c =>
      -- … which sits inside the trailing whitespace run, so it is
      -- whitespace, contradicting the hypothesis on the first `k` chars.
      have hw : isWs c = true := takeWhile_index_ws hidx (by rw [hrevget]; exact hcel)
      have hmem : c ∈ l.take k := by
        rw [List.mem_iff_getElem?]
        exact ⟨k - 1, by rw [List.getElem?_take_of_lt (by omega)]; exact hcel⟩
      have := h c hmem
      simp [this] at hw

theorem lstripChars_cons_of_not_ws {c : Char} {cs : List Char} (h : isWs c = false) :
    lstripChars (c :: cs) = c :: cs := by
  simp [lstripChars, List.dropWhile_cons, h]

/-- Taking the first `k` characters commutes with `strip` when those
characters are non-whitespace. -/
theorem stripChars_take_of_nonWs {x : List Char} {k : Nat} (hk : k ≤ x.length)
    (h : ∀ c ∈ x.take k, isWs c = false) : (stripChars x).take k = x.take k := by
  rcases Nat.eq_zero_or_pos k with hk0 | hkpos
  · subst hk0; simp
  · have hl : lstripChars x = x := by
      cases x with
      | nil => rfl
      | cons c cs =>
        refine lstripChars_cons_of_not_ws (h c ?_)
        cases k with
        | zero => omega
        | succ k => simp
    rw [stripChars, hl, rstripChars_eq_take, List.take_take]
    have hm : k ≤ x.length - (x.reverse.takeWhile isWs).length := by
      have := takeWhile_ws_reverse_bound hk h
      omega
    rw [min_eq_left hm]

theorem stripChars_length_le (x : List Char) : (stripChars x).length ≤ x.length := by
  have h1 : (lstripChars x).length ≤ x.length := by
    rw [lstripChars, dropWhile_eq_drop_length]
    simp
  have h2 : (rstripChars (lstripChars x)).length ≤ (lstripChars x).length := by
    rw [rstripChars_eq_take]
    simp
  exact le_trans h2 h1

/-- All-non-whitespace strings are fixed by `strip`. -/
theorem stripChars_eq_self {x : List Char} (h : ∀ c ∈ x, isWs c = false) :
    stripChars x = x := by
  have ht := stripChars_take_of_nonWs (k := x.length) le_rfl
    (by intro c hc; exact h c (by simpa using hc))
  rw [List.take_length] at ht
  rw [List.take_of_length_le (stripChars_length_le x)] at ht
  exact ht

theorem rstripChars_idem (z : List Char) : rstripChars (rstripChars z) = rstripChars z := by
  simp [rstripChars, List.reverse_reverse, List.dropWhile_idempotent]

theorem lstripChars_rstripChars {y : List Char} (hy : lstripChars y = y) :
    lstripChars (rstripChars y) = rstripChars y := by
  rw [rstripChars_eq_take]
  cases hz : y.take (y.length - (y.reverse.takeWhile isWs).length) with
  | nil => rfl
  | cons c cs =>
    apply lstripChars_cons_of_not_ws
    cases y with
    | nil => simp at hz
    | cons d ds =>
      have hd : isWs d = false := by
        by_contra hws
        simp only [Bool.not_eq_false] at hws
        rw [lstripChars, List.dropWhile_cons, hws] at hy
        simp only [if_true] at hy
        have hlen : (ds.dropWhile isWs).length ≤ ds.length := by
          rw [dropWhile_eq_drop_length]
          simp
        have hcon : (ds.dropWhile isWs).length = ds.length + 1 := by rw [hy]; simp
        omega
      have : c = d := by
        cases hn : (d :: ds).length - ((d :: ds).reverse.takeWhile isWs).length with
        | zero => rw [hn] at hz; simp at hz
        | succ m => rw [hn] at hz; simp at hz; exact hz.1.symm
      rwa [this]

/-- `str.strip()` is idempotent: chunks emitted by the loop carry no
leading or trailing whitespace. -/
theorem stripChars_idem (x : List Char) : stripChars (stripChars x) = stripChars x := by
  have hy : lstripChars (lstripChars x) = lstripChars x := by
    rw [lstripChars, lstripChars, List.dropWhile_idempotent]
  simp only [stripChars]
  rw [lstripChars_rstripChars hy, rstripChars_idem]

/-! ## Lemmas: `rfindChar`, `omax`, `computeEnd` -/

theorem rfindChar_eq_some {t : List Char} {c : Char} {a b p : Nat}
    (h : rfindChar t c a b = some p) :
    a ≤ p ∧ p < b ∧ p < t.length ∧ t[p]? = some c := by
  rw [rfindChar] at h
  by_cases h0 : min b t.length = 0
  · simp [h0] at h
  · rw [if_neg h0] at h
    obtain ⟨h1, h2, _⟩ := findTop_eq_some h
    simp only [Bool.and_eq_true, decide_eq_true_eq, beq_iff_eq] at h1
    exact ⟨h1.1, by omega, by omega, h1.2⟩

theorem rfindChar_eq_none {t : List Char} {c : Char} {a b : Nat}
    (h : rfindChar t c a b = none) :
    ∀ m, a ≤ m → m < b → m < t.length → t[m]? ≠ some c := by
  intro m h1 h2 h3 hc
  rw [rfindChar] at h
  by_cases h0 : min b t.length = 0
  · omega
  · rw [if_neg h0] at h
    have hpred : (decide (a ≤ m) && (t[m]? == some c)) = true := by
      simp only [Bool.and_eq_true, decide_eq_true_eq, beq_iff_eq]
      exact ⟨h1, hc⟩
    rw [findTop_eq_none h m (by omega)] at hpred
    simp at hpred

theorem rfindChar_ge {t : List Char} {c : Char} {a b p m : Nat}
    (h : rfindChar t c a b = some p) (hm : a ≤ m) (hm2 : m < b) (hm3 : m < t.length)
    (hc : t[m]? = some c) : m ≤ p := by
  rw [rfindChar] at h
  by_cases h0 : min b t.length = 0
  · omega
  · rw [if_neg h0] at h
    obtain ⟨_, _, hmax⟩ := findTop_eq_some h
    by_contra hgt
    push_neg at hgt
    have hpred : (decide (a ≤ m) && (t[m]? == some c)) = true := by
      simp only [Bool.and_eq_true, decide_eq_true_eq, beq_iff_eq]
      exact ⟨hm, hc⟩
    rw [hmax m hgt (by omega)] at hpred
    simp at hpred

theorem rfindChar_isSome {t : List Char} {c : Char} {a b m : Nat}
    (hm : a ≤ m) (hm2 : m < b) (hm3 : m < t.length) (hc : t[m]? = some c) :
    (rfindChar t c a b).isSome = true := by
  rw [rfindChar]
  have h0 : min b t.length ≠ 0 := by omega
  rw [if_neg h0]
  exact findTop_isSome (j := m) (by omega)
    (by simp only [Bool.and_eq_true, decide_eq_true_eq, beq_iff_eq]; exact ⟨hm, hc⟩)

theorem omax_eq_some {a b : Option Nat} {m : Nat} (h : omax a b = some m) :
    a = some m ∨ b = some m := by
  match a, b with
  | none, b => right; exact h
  | some x, none => left; exact h
  | some x, some y =>
    simp only [omax] at h
    rcases Nat.le_total x y with hxy | hxy
    · right
      rw [← h]
      simp [max_eq_right hxy]
    · left
      rw [← h]
      simp [max_eq_left hxy]

theorem omax_ge_left {a b : Option Nat} {x : Nat} (h : a = some x) :
    ∃ m, omax a b = some m ∧ x ≤ m := by
  subst h
  match b with
  | none => exact ⟨x, rfl, le_rfl⟩
  | some y => exact ⟨max x y, rfl, le_max_left x y⟩

theorem omax_ge_right {a b : Option Nat} {x : Nat} (h : b = some x) :
    ∃ m, omax a b = some m ∧ x ≤ m := by
  subst h
  match a with
  | none => exact ⟨x, rfl, le_rfl⟩
  | some y => exact ⟨max y x, rfl, le_max_right y x⟩

/-- A member of `lastPeriodIdx` is a real occurrence of `'.'`, `'?'` or
`'!'` in the window. -/
theorem lastPeriodIdx_occurrence {t : List Char} {a b p : Nat}
    (h : lastPeriodIdx t a b = some p) :
    ∃ c, (c = '.' ∨ c = '?' ∨ c = '!') ∧ a ≤ p ∧ p < b ∧ p < t.length ∧ t[p]? = some c := by
  rcases omax_eq_some h with h1 | h1
  · obtain ⟨ha, hb, hc, hd⟩ := rfindChar_eq_some h1
    exact ⟨'.', by simp, ha, hb, hc, hd⟩
  · rcases omax_eq_some h1 with h2 | h2
    · obtain ⟨ha, hb, hc, hd⟩ := rfindChar_eq_some h2
      exact ⟨'?', by simp, ha, hb, hc, hd⟩
    · obtain ⟨ha, hb, hc, hd⟩ := rfindChar_eq_some h2
      exact ⟨'!', by simp, ha, hb, hc, hd⟩

/-- If one of the three sentence terminators occurs in the window, then
`lastPeriodIdx` finds an index at least as large. -/
theorem lastPeriodIdx_ge {t : List Char} {a b m : Nat} {c : Char}
    (hc : c = '.' ∨ c = '?' ∨ c = '!') (hm : a ≤ m) (hm2 : m < b) (hm3 : m < t.length)
    (hocc : t[m]? = some c) : ∃ p, lastPeriodIdx t a b = some p ∧ m ≤ p := by
  rcases hc with hc | hc | hc
  · subst hc
    obtain ⟨x, hx⟩ := Option.isSome_iff_exists.mp (rfindChar_isSome hm hm2 hm3 hocc)
    obtain ⟨p, hp, hxp⟩ := omax_ge_left (b := omax (rfindChar t '?' a b) (rfindChar t '!' a b)) hx
    exact ⟨p, hp, le_trans (rfindChar_ge hx hm hm2 hm3 hocc) hxp⟩
  · subst hc
    obtain ⟨x, hx⟩ := Option.isSome_iff_exists.mp (rfindChar_isSome hm hm2 hm3 hocc)
    obtain ⟨q, hq, hxq⟩ := omax_ge_left (b := rfindChar t '!' a b) hx
    obtain ⟨p, hp, hqp⟩ := omax_ge_right (a := rfindChar t '.' a b) hq
    exact ⟨p, hp, le_trans (le_trans (rfindChar_ge hx hm hm2 hm3 hocc) hxq) hqp⟩
  · subst hc
    obtain ⟨x, hx⟩ := Option.isSome_iff_exists.mp (rfindChar_isSome hm hm2 hm3 hocc)
    obtain ⟨q, hq, hxq⟩ := omax_ge_right (a := rfindChar t '?' a b) hx
    obtain ⟨p, hp, hqp⟩ := omax_ge_right (a := rfindChar t '.' a b) hq
    exact ⟨p, hp, le_trans (le_trans (rfindChar_ge hx hm hm2 hm3 hocc) hxq) hqp⟩

theorem computeEnd_final {t : List Char} {cs start : Nat} (h : ¬ start + cs < t.length) :
    computeEnd t cs start = (start + cs, false) := by
  simp [computeEnd, h]

theorem computeEnd_period {t : List Char} {cs start p : Nat}
    (hlt : start + cs < t.length) (hper : lastPeriodIdx t start (start + cs) = some p)
    (hcond : start + cs / 2 < p) : computeEnd t cs start = (p + 1, true) := by
  simp [computeEnd, hlt, hper, hcond]

theorem computeEnd_space_some {t : List Char} {cs start p sp : Nat}
    (hlt : start + cs < t.length) (hper : lastPeriodIdx t start (start + cs) = some p)
    (hcond : ¬ start + cs / 2 < p) (hsp : rfindChar t ' ' start (start + cs) = some sp) :
    computeEnd t cs start = (sp + 1, true) := by
  simp [computeEnd, hlt, hper, hcond, hsp]

theorem computeEnd_space_none {t : List Char} {cs start sp : Nat}
    (hlt : start + cs < t.length) (hper : lastPeriodIdx t start (start + cs) = none)
    (hsp : rfindChar t ' ' start (start + cs) = some sp) :
    computeEnd t cs start = (sp + 1, true) := by
  simp [computeEnd, hlt, hper, hsp]

theorem computeEnd_noadj_some {t : List Char} {cs start p : Nat}
    (hlt : start + cs < t.length) (hper : lastPeriodIdx t start (start + cs) = some p)
    (hcond : ¬ start + cs / 2 < p) (hsp : rfindChar t ' ' start (start + cs) = none) :
    computeEnd t cs start = (start + cs, false) := by
  simp [computeEnd, hlt, hper, hcond, hsp]

theorem computeEnd_noadj_none {t : List Char} {cs start : Nat}
    (hlt : start + cs < t.length) (hper : lastPeriodIdx t start (start + cs) = none)
    (hsp : rfindChar t ' ' start (start + cs) = none) :
    computeEnd t cs start = (start + cs, false) := by
  simp [computeEnd, hlt, hper, hsp]

theorem computeEnd_le (t : List Char) (cs start : Nat) :
    (computeEnd t cs start).1 ≤ start + cs := by
  by_cases hlt : start + cs < t.length
  · cases hper : lastPeriodIdx t start (start + cs) with
    | some p =>
      by_cases hcond : start + cs / 2 < p
      · rw [computeEnd_period hlt hper hcond]
        have := (lastPeriodIdx_occurrence hper).choose_spec.2.2.1
        simpa using this
      · cases hsp : rfindChar t ' ' start (start + cs) with
        | some sp =>
          rw [computeEnd_space_some hlt hper hcond hsp]
          have := (rfindChar_eq_some hsp).2.1
          simpa using this
        | none => rw [computeEnd_noadj_some hlt hper hcond hsp]
    | none =>
      cases hsp : rfindChar t ' ' start (start + cs) with
      | some sp =>
        rw [computeEnd_space_none hlt hper hsp]
        have := (rfindChar_eq_some hsp).2.1
        simpa using this
      | none => rw [computeEnd_noadj_none hlt hper hsp]
  · rw [computeEnd_final hlt]

/-- An unadjusted, non-final window: the end is `start + chunk_size`, the
window holds no space, and every sentence terminator in it sits at or
below the midpoint. -/
theorem computeEnd_unadjusted {t : List Char} {cs start : Nat}
    (h1 : start + cs < t.length) (h2 : (computeEnd t cs start).2 = false) :
    (computeEnd t cs start).1 = start + cs ∧
    rfindChar t ' ' start (start + cs) = none ∧
    ∀ p, lastPeriodIdx t start (start + cs) = some p → p ≤ start + cs / 2 := by
  cases hper : lastPeriodIdx t start (start + cs) with
  | some p =>
    by_cases hcond : start + cs / 2 < p
    · rw [computeEnd_period h1 hper hcond] at h2
      simp at h2
    · cases hsp : rfindChar t ' ' start (start + cs) with
      | some sp =>
        rw [computeEnd_space_some h1 hper hcond hsp] at h2
        simp at h2
      | none =>
        have hce := computeEnd_noadj_some h1 hper hcond hsp
        refine ⟨by rw [hce], rfl, fun p' hp' => ?_⟩
        injection hp' with hp'
        omega
  | none =>
    cases hsp : rfindChar t ' ' start (start + cs) with
    | some sp =>
      rw [computeEnd_space_none h1 hper hsp] at h2
      simp at h2
    | none =>
      have hce := computeEnd_noadj_none h1 hper hsp
      exact ⟨by rw [hce], rfl, fun p' hp' => absurd hp' (by simp)⟩

/-! ## Lemmas: the chunking loop -/

/-- Every chunk the loop emits is a stripped window of at most `cs`
characters. -/
theorem chunkLoop_chunks {t : List Char} {cs ov : Nat} :
    ∀ {fuel start : Nat} {chunks : List (List Char)},
    chunkLoop t cs ov fuel start = some chunks →
    ∀ c ∈ chunks, c.length ≤ cs ∧ stripChars c = c := by
  intro fuel
  induction fuel with
  | zero =>
    intro start chunks h
    simp [chunkLoop] at h
  | succ fuel ih =>
    intro start chunks h c hc
    simp only [chunkLoop] at h
    by_cases hlt : start < t.length
    · rw [if_pos hlt] at h
      cases hrec : chunkLoop t cs ov fuel ((computeEnd t cs start).1 - ov) with
      | none =>
        rw [hrec] at h
        simp at h
      | some rest =>
        rw [hrec] at h
        injection h with h
        subst h
        rcases List.mem_cons.mp hc with hce | hcr
        · subst hce
          refine ⟨?_, stripChars_idem _⟩
          have h1 := stripChars_length_le (pySlice t start (computeEnd t cs start).1)
          have h2 : (pySlice t start (computeEnd t cs start).1).length ≤ cs := by
            rw [pySlice]
            simp
            have := computeEnd_le t cs start
            omega
          omega
        · exact ih hrec c hcr
    · rw [if_neg hlt] at h
      injection h with h
      subst h
      simp at hc

/-- If the loop maps a reachable state to itself, it never returns. -/
theorem chunkLoop_stuck {t : List Char} {cs ov start : Nat}
    (hlt : start < t.length) (hfix : (computeEnd t cs start).1 - ov = start) :
    ∀ fuel, chunkLoop t cs ov fuel start = none := by
  intro fuel
  induction fuel with
  | zero => rfl
  | succ f ih =>
    simp only [chunkLoop]
    rw [if_pos hlt, hfix, ih]

/-! ## Claim theorems -/

/-- C9: Constructing `GeminiInterface` raises immediately if and only if
the `GEMINI_API_KEY` environment variable is unset (`none`) or empty;
with a non-empty credential present construction succeeds. -/
theorem geminiInit_error_iff (env : Option String) :
    (∃ msg, geminiInit env = .error msg) ↔ (env = none ∨ env = some "") := by
  cases env with
  | none => simp [geminiInit]
  | some k =>
    by_cases hk : k = ""
    · subst hk
      simp [geminiInit]
    · simp [geminiInit, hk]

/-- C8: With `ids = None`, `ChromaDBManager.add_documents` assigns the
documents the identifiers `doc_0, …, doc_{n-1}` in order. -/
theorem add_documents_default_ids (docs : List String) :
    (effectiveIds none docs).length = docs.length ∧
    ∀ i, i < docs.length → (effectiveIds none docs)[i]? = some ("doc_" ++ toString i) := by
  constructor
  · simp [effectiveIds, genIds]
  · intro i hi
    simp [effectiveIds, genIds, List.getElem?_range, hi]

/-- Witness for C8 at a concrete three-document list. -/
theorem add_documents_default_ids_witness :
    (effectiveIds none ["alpha", "beta", "gamma"]).length = 3 ∧
    (effectiveIds none ["alpha", "beta", "gamma"])[2]? = some "doc_2" := by
  constructor
  · have h := (add_documents_default_ids ["alpha", "beta", "gamma"]).1
    simpa using h
  · have h := (add_documents_default_ids ["alpha", "beta", "gamma"]).2 2 (by decide)
    have he : "doc_" ++ toString 2 = "doc_2" := by decide
    rwa [he] at h

/-- C2 (code bug): the claim asserts the chunking loop always advances and
terminates whenever `0 ≤ overlap < chunk_size`; but on
`"ab cdefghijklmnop"` with `chunk_size = 10`, `overlap = 9` the space
adjustment sets `end = 3`, so `start = end - overlap` is clamped back to
`0` and the `while` loop never exits — the fuelled model returns `none`
for every fuel. -/
theorem chunk_text_nonterminating :
    ∀ fuel, chunk_text ("ab cdefghijklmnop".data) 10 9 fuel = none := by
  intro fuel
  have hne : ¬ (normalizeText ("ab cdefghijklmnop".data)).length ≤ 10 := by decide
  simp only [chunk_text, if_neg hne]
  exact chunkLoop_stuck (by decide) (by decide) fuel

/-- C4: every non-final chunk returned by `chunk_text` has length at most
`chunk_size`. -/
theorem chunk_text_nonfinal_length (t : List Char) (cs ov fuel : Nat)
    (chunks : List (List Char)) (h : chunk_text t cs ov fuel = some chunks) :
    ∀ c ∈ chunks.dropLast, c.length ≤ cs := by
  intro c hc
  have hmem : c ∈ chunks := List.mem_of_mem_dropLast hc
  simp only [chunk_text] at h
  by_cases hle : (normalizeText t).length ≤ cs
  · rw [if_pos hle] at h
    injection h with h
    subst h
    simp at hmem
    subst hmem
    exact hle
  · rw [if_neg hle] at h
    exact (chunkLoop_chunks h c hmem).1

/-- Witness for C4 at a concrete input. -/
theorem chunk_text_nonfinal_length_witness :
    chunk_text ("abcdefgh".data) 5 2 20 =
      some [("abcde".data), ("defgh".data), ("gh".data)] ∧
    ∀ c ∈ [("abcde".data), ("defgh".data), ("gh".data)].dropLast, c.length ≤ 5 :=
  ⟨by decide,
    chunk_text_nonfinal_length ("abcdefgh".data) 5 2 20
      [("abcde".data), ("defgh".data), ("gh".data)] (by decide)⟩

/-- C10: every chunk returned by `chunk_text` — the final one included —
has length at most `chunk_size` and carries no leading or trailing
whitespace (it is fixed by `strip`). -/
theorem chunk_text_all_chunks (t : List Char) (cs ov fuel : Nat)
    (chunks : List (List Char)) (h : chunk_text t cs ov fuel = some chunks) :
    ∀ c ∈ chunks, c.length ≤ cs ∧ stripChars c = c := by
  intro c hc
  simp only [chunk_text] at h
  by_cases hle : (normalizeText t).length ≤ cs
  · rw [if_pos hle] at h
    injection h with h
    subst h
    simp at hc
    subst hc
    exact ⟨hle, stripChars_idem _⟩
  · rw [if_neg hle] at h
    exact chunkLoop_chunks h c hc

/-! ## Lemmas: `find` / `rfind` on substrings -/

theorem findTop_eq_some_of {p : Nat → Bool} {n j : Nat} (hj : j ≤ n) (hp : p j = true)
    (hmax : ∀ m, j < m → m ≤ n → p m = false) : findTop p n = some j := by
  induction n with
  | zero =>
    have h0 : j = 0 := by omega
    subst h0
    simp [findTop, hp]
  | succ n ih =>
    rcases Nat.lt_or_ge j (n + 1) with hlt | hge
    · have hpn : p (n + 1) = false := hmax (n + 1) (by omega) le_rfl
      rw [findTop, hpn]
      simp only [Bool.false_eq_true, if_false]
      exact ih (by omega) (fun m hm hm2 => hmax m hm (by omega))
    · have h1 : j = n + 1 := by omega
      subst h1
      simp [findTop, hp]

theorem pyFindSub_of_startsWith {l sub : List Char} (h : sub.isPrefixOf l = true) :
    pyFindSub l sub = some 0 := by
  rw [pyFindSub, findFrom]
  simp [h]

theorem pyRfindSub_append {pre sub : List Char} (hsub : sub ≠ []) :
    pyRfindSub (pre ++ sub) sub = some pre.length := by
  apply findTop_eq_some_of
  · simp
  · rw [List.drop_left]
    exact isPrefixOf_refl sub
  · intro m hm hm2
    by_cases hpre : sub.isPrefixOf ((pre ++ sub).drop m) = true
    · have hle := isPrefixOf_length_le hpre
      have hdl : ((pre ++ sub).drop m).length = pre.length + sub.length - m := by simp
      rw [hdl] at hle
      have hpos : 0 < sub.length := List.length_pos.mpr hsub
      omega
    · rw [Bool.not_eq_true] at hpre
      exact hpre

/-- C6: when the model response is exactly a well-formed JSON payload that
begins with `[{` and ends with `}]`, the strict-extraction path of both
parsers returns exactly the decoded structure. -/
theorem parsers_roundtrip (s pre : List Char) (v : Json) (n m : Nat)
    (h1 : ("[\x7b".data).isPrefixOf s = true)
    (h2 : s = pre ++ ("\x7d]".data))
    (h3 : jsonLoads s = some v) :
    generate_mcqs s n = v ∧ generate_flashcards s m = v := by
  have hfind : pyFindSub s ("[\x7b".data) = some 0 := pyFindSub_of_startsWith h1
  have hrfind : pyRfindSub s ("\x7d]".data) = some pre.length := by
    rw [h2]
    exact pyRfindSub_append (by decide)
  have hlen : s.length = pre.length + 2 := by rw [h2]; simp
  have hslice : pySlice s 0 (pre.length + 2) = s := by
    rw [pySlice, List.drop_zero, ← hlen, List.take_length]
  constructor
  · simp only [generate_mcqs, hfind, hrfind]
    rw [if_pos (by omega), hslice, h3]
  · simp only [generate_flashcards, hfind, hrfind]
    rw [if_pos (by omega), hslice, h3]

/-- Witness for C6 at a concrete JSON payload. -/
theorem parsers_roundtrip_witness :
    jsonLoads ("[\x7b\"a\": 1\x7d]".data) =
      some (Json.arr [Json.obj [(("a".data), Json.num 1)]]) ∧
    generate_mcqs ("[\x7b\"a\": 1\x7d]".data) 5 =
      Json.arr [Json.obj [(("a".data), Json.num 1)]] ∧
    generate_flashcards ("[\x7b\"a\": 1\x7d]".data) 10 =
      Json.arr [Json.obj [(("a".data), Json.num 1)]] := by
  have h := parsers_roundtrip ("[\x7b\"a\": 1\x7d]".data) ("[\x7b\"a\": 1".data)
    (Json.arr [Json.obj [(("a".data), Json.num 1)]]) 5 10 (by decide) (by rfl) (by rfl)
  exact ⟨by rfl, h.1, h.2⟩

/-! ## Lemmas: the MCQ fallback on marker-free responses -/

theorem mcqFallback_eq_nil {response : List Char} {n : Nat}
    (hq : containsSub response ("?".data) = false) :
    mcqFallback response n = [] := by
  rw [mcqFallback]
  rw [List.filterMap_eq_nil_iff]
  intro q hq2
  have hqmem : q ∈ splitOnSub response ("\n\n".data) := List.mem_of_mem_take hq2
  have hnoq : containsSub q ("?".data) = false := by
    by_contra hcon
    rw [Bool.not_eq_false] at hcon
    have := containsSub_of_mem_splitOnSub hqmem hcon
    rw [hq] at this
    cases this
  rw [mcqFallbackPara, hnoq]
  simp

/-- C1 (corrected): on a response with no `[{ … }]` span and no
`?`/`A.`/`B.` markers, `generate_mcqs` never raises, and it returns the
empty list — except when the response begins with `[{` (then the
extracted fragment `"["` fails JSON parsing and the single placeholder is
returned). -/
theorem generate_mcqs_unparseable (response : List Char) (n : Nat)
    (hspan : hasJsonSpan response = false)
    (hq : containsSub response ("?".data) = false)
    (hA : containsSub response ("A.".data) = false)
    (hB : containsSub response ("B.".data) = false) :
    generate_mcqs response n =
      (if ("[\x7b".data).isPrefixOf response then Json.arr [mcqPlaceholder]
       else Json.arr []) := by
  have hfb : mcqFallback response n = [] := mcqFallback_eq_nil hq
  cases hp : pyFindSub response ("[\x7b".data) with
  | none =>
    have hnsw : ("[\x7b".data).isPrefixOf response = false := by
      by_contra hsw
      rw [Bool.not_eq_false] at hsw
      rw [pyFindSub_of_startsWith hsw] at hp
      cases hp
    simp only [generate_mcqs, hp, hfb, hnsw]
    simp
  | some p =>
    have hocc_p : ("[\x7b".data).isPrefixOf (response.drop p) = true := (findFrom_eq_some hp).1
    have hcp0 : response[p]? = some '[' := by
      have h0 := getElem?_of_occurrence hocc_p (k := 0) (by decide)
      rw [show (("[\x7b".data))[0]? = some '[' from rfl] at h0
      simpa using h0
    have hcp1 : response[p + 1]? = some '\x7b' := by
      have h0 := getElem?_of_occurrence hocc_p (k := 1) (by decide)
      rw [show (("[\x7b".data))[1]? = some '\x7b' from rfl] at h0
      exact h0
    cases hq2 : pyRfindSub response ("\x7d]".data) with
    | none =>
      by_cases hp1 : p < 1
      · have hp0 : p = 0 := by omega
        subst hp0
        have hsw : ("[\x7b".data).isPrefixOf response = true := by
          rw [List.drop_zero] at hocc_p
          exact hocc_p
        have hslice : pySlice response 0 1 = ['['] := by
          rw [pySlice, List.drop_zero]
          cases response with
          | nil => simp at hcp0
          | cons c cs =>
            simp at hcp0
            simp [List.take, hcp0]
        simp only [generate_mcqs, hp, hq2]
        rw [if_pos (by omega), hslice]
        rw [show jsonLoads ['['] = none from rfl, hsw]
        simp
      · have hnsw : ("[\x7b".data).isPrefixOf response = false := by
          by_contra hsw
          rw [Bool.not_eq_false] at hsw
          rw [pyFindSub_of_startsWith hsw] at hp
          injection hp with hp
          omega
        simp only [generate_mcqs, hp, hq2]
        rw [if_neg (by omega), hfb, hnsw]
        simp
    | some q =>
      have hocc_q : ("\x7d]".data).isPrefixOf (response.drop q) = true := (findTop_eq_some hq2).1
      have hcq0 : response[q]? = some '\x7d' := by
        have h0 := getElem?_of_occurrence hocc_q (k := 0) (by decide)
        rw [show (("\x7d]".data))[0]? = some '\x7d' from rfl] at h0
        simpa using h0
      have hcq1 : response[q + 1]? = some ']' := by
        have h0 := getElem?_of_occurrence hocc_q (k := 1) (by decide)
        rw [show (("\x7d]".data))[1]? = some ']' from rfl] at h0
        exact h0
      have hqlep : ¬ (p < q) := by
        intro hlt
        rw [hasJsonSpan, hp, hq2] at hspan
        simp [hlt] at hspan
      have hpq : ¬ (p < q + 2) := by
        intro hlt
        rcases (by omega : p = q ∨ p = q + 1) with h | h
        · subst h
          rw [hcp0] at hcq0
          injection hcq0 with hc
          exact absurd hc (by decide)
        · subst h
          rw [hcp0] at hcq1
          injection hcq1 with hc
          exact absurd hc (by decide)
      have hnsw : ("[\x7b".data).isPrefixOf response = false := by
        by_contra hsw
        rw [Bool.not_eq_false] at hsw
        rw [pyFindSub_of_startsWith hsw] at hp
        injection hp with hp
        omega
      simp only [generate_mcqs, hp, hq2]
      rw [if_neg hpq, hfb, hnsw]
      simp

/-- C1 counterexample: on `"hello"` (no JSON span, no question markers)
`generate_mcqs` returns the empty list, not the one-element placeholder
list the claim demands. -/
theorem generate_mcqs_unparseable_cex :
    generate_mcqs ("hello".data) 5 = Json.arr [] ∧
    Json.arr [] ≠ Json.arr [mcqPlaceholder] := by
  constructor
  · rfl
  · intro hcon
    injection hcon with h
    cases h

/-- Witness for C1 (corrected) at a concrete marker-free response. -/
theorem generate_mcqs_unparseable_witness :
    generate_mcqs ("no structure in this text".data) 3 =
      (if ("[\x7b".data).isPrefixOf ("no structure in this text".data)
       then Json.arr [mcqPlaceholder] else Json.arr []) :=
  generate_mcqs_unparseable ("no structure in this text".data) 3
    (by decide) (by decide) (by decide) (by decide)

/-! ## Lemmas: `collectRange` and `retrieve` -/

theorem collectRange_eq_some {β : Type} {f : Nat → Option β} :
    ∀ {k : Nat} {l : List β}, collectRange f k = some l →
    l.length = k ∧ ∀ j, j < k → l[j]? = f j := by
  intro k
  induction k with
  | zero =>
    intro l h
    simp only [collectRange] at h
    injection h with h
    subst h
    exact ⟨rfl, by omega⟩
  | succ k ih =>
    intro l h
    simp only [collectRange] at h
    cases hacc : collectRange f k with
    | none => rw [hacc] at h; cases h
    | some acc =>
      rw [hacc] at h
      cases hfk : f k with
      | none => rw [hfk] at h; cases h
      | some b =>
        rw [hfk] at h
        injection h with h
        subst h
        obtain ⟨hlen, hget⟩ := ih hacc
        constructor
        · simp [hlen]
        · intro j hj
          rcases Nat.lt_or_ge j k with hlt | hge
          · rw [List.getElem?_append_left (by omega), hget j hlt]
          · have hjk : j = k := by omega
            subst hjk
            rw [List.getElem?_append_right (by omega), hfk]
            simp [hlen]

/-- Unpacking a successful `buildDoc`: the record's `id` and `distance`
fields come from the store's parallel lists at the same index. -/
theorem buildDoc_fields {α μ : Type} {res : QueryResults α μ} {ids0 : List String}
    {dists0 : List α} {j : Nat} {r : RetrievedDoc α μ}
    (hids : res.ids = [ids0]) (hdist : res.distances = [dists0])
    (h : buildDoc res j = some r) :
    ids0[j]? = some r.id ∧ dists0[j]? = some r.distance := by
  rw [buildDoc, hids, hdist] at h
  simp only [List.getElem?_cons_zero, Option.some_bind] at h
  cases hdocs : res.documents[0]? with
  | none => rw [hdocs, Option.none_bind] at h; cases h
  | some docs0 =>
    rw [hdocs, Option.some_bind] at h
    cases hi1 : ids0[j]? with
    | none => rw [hi1, Option.none_bind] at h; cases h
    | some idj =>
      rw [hi1, Option.some_bind] at h
      cases hi2 : docs0[j]? with
      | none => rw [hi2, Option.none_bind] at h; cases h
      | some docj =>
        rw [hi2, Option.some_bind] at h
        cases hi4 : metaLookup res.metadatas j with
        | none => rw [hi4, Option.none_bind] at h; cases h
        | some mdj =>
          rw [hi4, Option.some_bind] at h
          cases hi3 : dists0[j]? with
          | none => rw [hi3, Option.none_bind] at h; cases h
          | some dj =>
            rw [hi3, Option.some_bind] at h
            injection h with h
            subst h
            exact ⟨rfl, rfl⟩

/-- C7: given the store's reply ranked ascending by distance and holding
at most `n_results` hits, `retrieve` returns at most `n_results` records,
with the store's ids in the store's order, and with non-decreasing
distance fields. -/
theorem retrieve_ordered {α μ : Type} [LinearOrder α] (res : QueryResults α μ)
    (ids0 : List String) (dists0 : List α) (n : Nat) (records : List (RetrievedDoc α μ))
    (hids : res.ids = [ids0])
    (hdist : res.distances = [dists0])
    (hlen : dists0.length = ids0.length)
    (hn : ids0.length ≤ n)
    (hsort : dists0.Chain' (· ≤ ·))
    (hsome : retrieve res = some records) :
    records.length ≤ n ∧
    records.map (fun r => r.id) = ids0 ∧
    records.map (fun r => r.distance) = dists0 ∧
    (records.map (fun r => r.distance)).Chain' (· ≤ ·) := by
  rw [retrieve, hids] at hsome
  simp only [List.getElem?_cons_zero] at hsome
  obtain ⟨hreclen, hget⟩ := collectRange_eq_some hsome
  have hfield : ∀ j, j < ids0.length →
      records[j]?.map (fun r => r.id) = ids0[j]? ∧
      records[j]?.map (fun r => r.distance) = dists0[j]? := by
    intro j hj
    have hj' : j < records.length := by omega
    cases hrj : records[j]? with
    | none =>
      rw [List.getElem?_eq_none_iff] at hrj
      omega
    | some r =>
      have hbd : buildDoc res j = some r := by
        rw [← hget j hj]
        exact hrj
      obtain ⟨h1, h2⟩ := buildDoc_fields hids hdist hbd
      exact ⟨by simp [h1.symm], by simp [h2.symm]⟩
  have hmap_id : records.map (fun r => r.id) = ids0 := by
    apply List.ext_getElem?
    intro j
    rw [List.getElem?_map]
    rcases Nat.lt_or_ge j ids0.length with hlt | hge
    · exact (hfield j hlt).1
    · rw [List.getElem?_eq_none (by omega), List.getElem?_eq_none (by omega)]
      rfl
  have hmap_dist : records.map (fun r => r.distance) = dists0 := by
    apply List.ext_getElem?
    intro j
    rw [List.getElem?_map]
    rcases Nat.lt_or_ge j ids0.length with hlt | hge
    · exact (hfield j hlt).2
    · rw [List.getElem?_eq_none (by omega), List.getElem?_eq_none (by omega)]
      rfl
  refine ⟨by omega, hmap_id, hmap_dist, ?_⟩
  rw [hmap_dist]
  exact hsort

/-- Witness for C7 at a concrete two-hit store reply with integer
distances. -/
theorem retrieve_ordered_witness :
    retrieve (QueryResults.mk [["id0", "id1"]] [["docA", "docB"]]
        (none : Option (List (List String))) [[(1 : Int), 4]]) =
      some [RetrievedDoc.mk "id0" "docA" none 1, RetrievedDoc.mk "id1" "docB" none 4] ∧
    [RetrievedDoc.mk "id0" "docA" (none : Option String) (1 : Int),
     RetrievedDoc.mk "id1" "docB" none 4].length ≤ 3 ∧
    [RetrievedDoc.mk "id0" "docA" (none : Option String) (1 : Int),
     RetrievedDoc.mk "id1" "docB" none 4].map (fun r => r.id) = ["id0", "id1"] ∧
    [RetrievedDoc.mk "id0" "docA" (none : Option String) (1 : Int),
     RetrievedDoc.mk "id1" "docB" none 4].map (fun r => r.distance) = [(1 : Int), 4] ∧
    ([RetrievedDoc.mk "id0" "docA" (none : Option String) (1 : Int),
      RetrievedDoc.mk "id1" "docB" none 4].map (fun r => r.distance)).Chain' (· ≤ ·) := by
  have h := retrieve_ordered
    (QueryResults.mk [["id0", "id1"]] [["docA", "docB"]]
      (none : Option (List (List String))) [[(1 : Int), 4]])
    ["id0", "id1"] [(1 : Int), 4] 3
    [RetrievedDoc.mk "id0" "docA" none 1, RetrievedDoc.mk "id1" "docB" none 4]
    rfl rfl (by decide) (by decide) (by simp [List.chain'_cons]) (by decide)
  exact ⟨by decide, h⟩

/-! ## Lemmas: whitespace normalization refines the spec's description -/

theorem collapseGo_true_eq (l : List Char) :
    collapseGo true l = collapseGo false (l.dropWhile isWs) := by
  induction l with
  | nil => rfl
  | cons c cs ih =>
    by_cases hws : isWs c = true
    · rw [List.dropWhile_cons, if_pos hws]
      simpa [collapseGo, hws] using ih
    · rw [List.dropWhile_cons, if_neg (by simp [hws])]
      simp [collapseGo, hws]

theorem wordsGo_nil_dropWhile (l : List Char) :
    wordsGo [] l = wordsGo [] (l.dropWhile isWs) := by
  induction l with
  | nil => rfl
  | cons c cs ih =>
    by_cases hws : isWs c = true
    · rw [List.dropWhile_cons, if_pos hws, ← ih]
      simp [wordsGo, hws]
    · rw [List.dropWhile_cons, if_neg (by simp [hws])]

theorem wordsGo_ne_nil {acc : List Char} (hacc : acc ≠ []) :
    ∀ l : List Char, wordsGo acc l ≠ [] := by
  intro l
  induction l generalizing acc with
  | nil => simp [wordsGo, hacc]
  | cons c cs ih =>
    by_cases hws : isWs c = true
    · simp only [wordsGo, hws, if_true, if_neg hacc]
      simp
    · simp only [wordsGo, hws]
      simp only [Bool.false_eq_true, if_false]
      exact ih (by simp)

theorem dropWhile_all_false {p : Char → Bool} {l : List Char}
    (h : ∀ x ∈ l, p x = false) : l.dropWhile p = l := by
  cases l with
  | nil => rfl
  | cons c cs => rw [List.dropWhile_cons, if_neg (by simp [h c (by simp)])]

theorem dropWhile_head_not {p : Char → Bool} {l : List Char} {d : Char} {r : List Char}
    (h : l.dropWhile p = d :: r) : p d = false := by
  induction l with
  | nil => simp [List.dropWhile] at h
  | cons c cs ih =>
    rw [List.dropWhile_cons] at h
    by_cases hp : p c = true
    · rw [if_pos hp] at h
      exact ih h
    · rw [if_neg hp] at h
      injection h with h1 _
      subst h1
      simpa [Bool.not_eq_true] using hp

theorem dropWhile_append_of_ne_nil {p : Char → Bool} {l₁ : List Char} (l₂ : List Char)
    (h : l₁.dropWhile p ≠ []) : (l₁ ++ l₂).dropWhile p = l₁.dropWhile p ++ l₂ := by
  induction l₁ with
  | nil => simp [List.dropWhile] at h
  | cons c cs ih =>
    rw [List.cons_append, List.dropWhile_cons, List.dropWhile_cons]
    by_cases hp : p c = true
    · rw [if_pos hp, if_pos hp]
      rw [List.dropWhile_cons, if_pos hp] at h
      exact ih h
    · rw [if_neg hp, if_neg hp, List.cons_append]

theorem rstripChars_ne_nil {x : Char} {xs : List Char} (hx : isWs x = false) :
    rstripChars (x :: xs) ≠ [] := by
  rw [rstripChars_eq_take]
  have hb := takeWhile_ws_reverse_bound (l := x :: xs) (k := 1) (by simp)
    (by intro c hc; simp at hc; rwa [hc])
  intro hcon
  have hlen := congrArg List.length hcon
  simp only [List.length_take, List.length_nil] at hlen
  simp only [List.length_cons] at hlen hb
  omega

theorem rstripChars_append_of_ne_nil {a b : List Char} (h : rstripChars b ≠ []) :
    rstripChars (a ++ b) = a ++ rstripChars b := by
  have hne : b.reverse.dropWhile isWs ≠ [] := by
    intro hcon
    rw [rstripChars, hcon] at h
    simp at h
  rw [rstripChars, List.reverse_append, dropWhile_append_of_ne_nil _ hne,
    List.reverse_append, List.reverse_reverse, rstripChars]

/-- The normalization loop against the spec's words, generalized over the
word in progress (`acc`, reversed). -/
theorem collapse_strip_spec :
    ∀ (n : Nat) (l acc : List Char), l.length ≤ n → (∀ c ∈ acc, isWs c = false) →
    stripChars (acc.reverse ++ collapseGo false l) = joinWords (wordsGo acc l) := by
  intro n
  induction n with
  | zero =>
    intro l acc hl hacc
    have hnil : l = [] := by
      cases l with
      | nil => rfl
      | cons c cs => simp at hl
    subst hnil
    by_cases ha : acc = []
    · subst ha
      rfl
    · simp only [collapseGo, List.append_nil, wordsGo, if_neg ha]
      rw [stripChars_eq_self (by intro c hc; exact hacc c (by simpa using hc))]
      cases hrev : acc.reverse with
      | nil => simp at hrev; exact absurd hrev ha
      | cons h t => rfl
  | succ n ih =>
    intro l acc hl hacc
    cases l with
    | nil =>
      exact ih [] acc (by simp) hacc
    | cons c cs =>
      by_cases hws : isWs c = true
      · -- whitespace: the collapse emits one space, the splitter closes
        -- the current word
        have hcoll : collapseGo false (c :: cs) = ' ' :: collapseGo false (cs.dropWhile isWs) := by
          simp [collapseGo, hws, collapseGo_true_eq]
        by_cases ha : acc = []
        · subst ha
          rw [hcoll]
          simp only [List.reverse_nil, List.nil_append]
          have hstrip : stripChars (' ' :: collapseGo false (cs.dropWhile isWs)) =
              stripChars (collapseGo false (cs.dropWhile isWs)) := by
            simp only [stripChars, lstripChars, List.dropWhile_cons]
            rw [if_pos (by decide)]
          rw [hstrip]
          have hres := ih (cs.dropWhile isWs) []
            (by
              have hd := dropWhile_eq_drop_length isWs cs
              rw [hd]
              simp only [List.length_drop]
              simp only [List.length_cons] at hl
              omega)
            (by simp)
          simp only [List.reverse_nil, List.nil_append] at hres
          rw [hres]
          simp only [wordsGo, hws, if_true]
          rw [wordsGo_nil_dropWhile cs]
        · -- a word was in progress: it is emitted, followed by a space
          have hwords : wordsGo acc (c :: cs) = acc.reverse :: wordsGo [] (cs.dropWhile isWs) := by
            simp only [wordsGo, hws, if_true, if_neg ha]
            rw [wordsGo_nil_dropWhile cs]
          rw [hcoll, hwords]
          have haccrev : ∀ x ∈ acc.reverse, isWs x = false := by
            intro x hx
            exact hacc x (by simpa using hx)
          cases hcs2 : cs.dropWhile isWs with
          | nil =>
            -- the trailing space is stripped
            simp only [collapseGo]
            have hrev : (acc.reverse ++ [' ']).reverse = ' ' :: acc := by
              rw [List.reverse_append, List.reverse_reverse]
              rfl
            have hlstrip : lstripChars (acc.reverse ++ [' ']) = acc.reverse ++ [' '] := by
              cases harev : acc.reverse with
              | nil => simp at harev; exact absurd harev ha
              | cons h t =>
                rw [List.cons_append]
                refine lstripChars_cons_of_not_ws ?_
                exact haccrev h (by rw [harev]; simp)
            rw [stripChars, hlstrip, rstripChars, hrev, List.dropWhile_cons,
              if_pos (by decide), dropWhile_all_false hacc]
            simp [wordsGo, joinWords]
          | cons e r₃ =>
            have he : isWs e = false := dropWhile_head_not hcs2
            have hcolle : collapseGo false (e :: r₃) = e :: collapseGo false r₃ := by
              simp [collapseGo, he]
            -- the later words are non-empty, so the space separating them
            -- from `acc` survives the strip
            have hlstrip : lstripChars (acc.reverse ++ ' ' :: collapseGo false (e :: r₃)) =
                acc.reverse ++ ' ' :: collapseGo false (e :: r₃) := by
              cases harev : acc.reverse with
              | nil => simp at harev; exact absurd harev ha
              | cons h t =>
                rw [List.cons_append]
                refine lstripChars_cons_of_not_ws ?_
                exact haccrev h (by rw [harev]; simp)
            have hrne : rstripChars (collapseGo false (e :: r₃)) ≠ [] := by
              rw [hcolle]
              exact rstripChars_ne_nil he
            have hassoc : acc.reverse ++ ' ' :: collapseGo false (e :: r₃) =
                (acc.reverse ++ [' ']) ++ collapseGo false (e :: r₃) := by
              simp
            have hstripX : rstripChars (collapseGo false (e :: r₃)) =
                stripChars (collapseGo false (e :: r₃)) := by
              rw [stripChars, hcolle, lstripChars_cons_of_not_ws he]
            have hres := ih (e :: r₃) []
              (by
                have hd := dropWhile_eq_drop_length isWs cs
                rw [hcs2] at hd
                have hlen2 := congrArg List.length hd
                simp only [List.length_cons, List.length_drop] at hlen2 ⊢
                simp only [List.length_cons] at hl
                omega)
              (by simp)
            simp only [List.reverse_nil, List.nil_append] at hres
            have hwne : wordsGo [] (e :: r₃) ≠ [] := by
              simp only [wordsGo, he]
              simp only [Bool.false_eq_true, if_false]
              exact wordsGo_ne_nil (by simp) r₃
            rw [stripChars, hlstrip, hassoc, rstripChars_append_of_ne_nil hrne,
              hstripX, hres]
            cases hw : wordsGo [] (e :: r₃) with
            | nil => exact absurd hw hwne
            | cons h t =>
              simp only [joinWords]
              simp
      · -- a non-whitespace character extends the word in progress
        have hcoll : collapseGo false (c :: cs) = c :: collapseGo false cs := by
          simp [collapseGo, hws]
        have hwords : wordsGo acc (c :: cs) = wordsGo (c :: acc) cs := by
          simp [wordsGo, hws]
        rw [hcoll, hwords]
        have hres := ih cs (c :: acc) (by simp at hl; omega)
          (by
            intro x hx
            rcases List.mem_cons.mp hx with h | h
            · subst h
              simpa [Bool.not_eq_true] using hws
            · exact hacc x h)
        rw [← hres]
        congr 1
        simp

/-- `re.sub(r'\s+', ' ', text).strip()` computes exactly the spec's
"collapse every whitespace run to one space and trim both ends". -/
theorem normalizeText_eq_spec (l : List Char) : normalizeText l = wsNormSpec l := by
  have h := collapse_strip_spec l.length l [] le_rfl (by simp)
  simpa [normalizeText, collapseWs, wsNormSpec, wsWords] using h

/-- C5: `chunk_text` first whitespace-normalizes (collapsing whitespace
runs to single spaces and trimming the ends), and any input whose
normalized form fits in `chunk_size` yields exactly that normalized text
as the single chunk. -/
theorem chunk_text_normalizes (t : List Char) (cs ov fuel : Nat)
    (h : (wsNormSpec t).length ≤ cs) :
    chunk_text t cs ov fuel = some [wsNormSpec t] := by
  have hn : normalizeText t = wsNormSpec t := normalizeText_eq_spec t
  simp only [chunk_text, hn]
  rw [if_pos h]

/-- Witness for C5 at a concrete input with tabs and doubled spaces. -/
theorem chunk_text_normalizes_witness :
    chunk_text ("  hello \t  world  ".data) 20 5 10 = some [("hello world".data)] := by
  have h := chunk_text_normalizes ("  hello \t  world  ".data) 20 5 10 (by decide)
  rw [h]
  decide

/-! ## Lemmas: slices and the chunk-overlap property -/

theorem pySlice_getElem?_some {t : List Char} {a b k : Nat} {ch : Char}
    (h : (pySlice t a b)[k]? = some ch) :
    t[a + k]? = some ch ∧ a + k < b ∧ a + k < t.length := by
  rw [pySlice, List.getElem?_drop] at h
  have hlt : a + k < (t.take b).length := (List.getElem?_eq_some_iff.mp h).1
  simp only [List.length_take] at hlt
  rw [List.getElem?_take_of_lt (by omega)] at h
  exact ⟨h, by omega, by omega⟩

theorem pySlice_length {t : List Char} {a b : Nat} :
    (pySlice t a b).length = min b t.length - a := by
  rw [pySlice]
  simp

/-- The characters of a window `[start, start+cs)` with no space and only
`' '` as possible whitespace are all non-whitespace. -/
theorem window_nonWs {t : List Char} {cs start : Nat}
    (hws : ∀ c ∈ t, isWs c = true → c = ' ')
    (hnf : start + cs < t.length)
    (hsp : rfindChar t ' ' start (start + cs) = none) :
    ∀ m ch, start ≤ m → m < start + cs → t[m]? = some ch → isWs ch = false := by
  intro m ch h1 h2 h3
  by_contra hcon
  rw [Bool.not_eq_false] at hcon
  have hch : ch = ' ' := hws ch (List.getElem?_mem h3) hcon
  subst hch
  exact rfindChar_eq_none hsp m h1 h2 (by omega) h3

/-- C3 (corrected): for consecutive chunks produced by the `chunk_text`
loop whose earlier window was *non-final* and got no sentence-terminator
or space boundary adjustment, the last `overlap` characters of the earlier
chunk equal the first `overlap` characters of the later chunk.  (For the
final, always-unadjusted window the property fails — see the
counterexample.) -/
theorem chunkLoop_consecutive_overlap (t : List Char) (cs ov fuel start : Nat)
    (c1 c2 : List Char) (rest : List (List Char))
    (hws : ∀ c ∈ t, isWs c = true → c = ' ')
    (hov : ov < cs)
    (hnf : start + cs < t.length)
    (hunadj : (computeEnd t cs start).2 = false)
    (hrun : chunkLoop t cs ov fuel start = some (c1 :: c2 :: rest)) :
    lastN ov c1 = c2.take ov := by
  obtain ⟨he1, hsp1, hper1⟩ := computeEnd_unadjusted hnf hunadj
  have hnw := window_nonWs hws hnf hsp1
  -- peel the first loop iteration
  cases fuel with
  | zero => cases hrun
  | succ f =>
    simp only [chunkLoop] at hrun
    rw [if_pos (by omega), he1] at hrun
    cases hrec : chunkLoop t cs ov f (start + cs - ov) with
    | none => rw [hrec] at hrun; cases hrun
    | some rest2 =>
      rw [hrec] at hrun
      injection hrun with hrun
      injection hrun with hc1 hrest2
      -- peel the second loop iteration
      cases f with
      | zero => cases hrec
      | succ f2 =>
        simp only [chunkLoop] at hrec
        rw [if_pos (by omega)] at hrec
        cases hrec2 : chunkLoop t cs ov f2 ((computeEnd t cs (start + cs - ov)).1 - ov) with
        | none => rw [hrec2] at hrec; cases hrec
        | some rest3 =>
          rw [hrec2] at hrec
          injection hrec with hrec
          rw [hrest2] at hrec
          injection hrec with hc2 hrest3
          -- names for the second window
          have hs'start : start ≤ start + cs - ov := by omega
          have hs'ov : start + cs - ov + ov = start + cs := by omega
          -- the first chunk is the raw window: no whitespace inside
          have hslice1 : ∀ ch ∈ pySlice t start (start + cs), isWs ch = false := by
            intro ch hch
            obtain ⟨k, hk⟩ := List.mem_iff_getElem?.mp hch
            obtain ⟨hk1, hk2, _⟩ := pySlice_getElem?_some hk
            exact hnw (start + k) ch (by omega) hk2 hk1
          have hc1' : c1 = pySlice t start (start + cs) := by
            rw [← hc1, stripChars_eq_self hslice1]
          have hlen1 : c1.length = cs := by
            rw [hc1', pySlice_length]
            omega
          -- the second window's end reaches at least `start + cs`
          have he2 : start + cs ≤ (computeEnd t cs (start + cs - ov)).1 := by
            set s' := start + cs - ov with hs'
            by_cases hlt2 : s' + cs < t.length
            · cases hper2 : lastPeriodIdx t s' (s' + cs) with
              | some p =>
                by_cases hcond2 : s' + cs / 2 < p
                · rw [computeEnd_period hlt2 hper2 hcond2]
                  by_contra hcon
                  push_neg at hcon
                  have hplt : p < start + cs := by omega
                  obtain ⟨ch, hch, hp1, hp2, hp3, hp4⟩ := lastPeriodIdx_occurrence hper2
                  obtain ⟨q, hq1, hq2⟩ :=
                    lastPeriodIdx_ge (a := start) (b := start + cs) hch (by omega) hplt hp3 hp4
                  have := hper1 q hq1
                  omega
                · cases hsp2 : rfindChar t ' ' s' (s' + cs) with
                  | some sp =>
                    rw [computeEnd_space_some hlt2 hper2 hcond2 hsp2]
                    obtain ⟨hq1, hq2, hq3, hq4⟩ := rfindChar_eq_some hsp2
                    by_contra hcon
                    push_neg at hcon
                    exact rfindChar_eq_none hsp1 sp (by omega) (by omega) hq3 hq4
                  | none =>
                    rw [computeEnd_noadj_some hlt2 hper2 hcond2 hsp2]
                    omega
              | none =>
                cases hsp2 : rfindChar t ' ' s' (s' + cs) with
                | some sp =>
                  rw [computeEnd_space_none hlt2 hper2 hsp2]
                  obtain ⟨hq1, hq2, hq3, hq4⟩ := rfindChar_eq_some hsp2
                  by_contra hcon
                  push_neg at hcon
                  exact rfindChar_eq_none hsp1 sp (by omega) (by omega) hq3 hq4
                | none =>
                  rw [computeEnd_noadj_none hlt2 hper2 hsp2]
                  omega
            · rw [computeEnd_final hlt2]
              omega
          -- the shared region, as a slice
          have hshared1 : lastN ov c1 = pySlice t (start + cs - ov) (start + cs) := by
            rw [hc1', lastN, pySlice_length, pySlice, pySlice, List.drop_drop]
            congr 1
            omega
          have hshared2 : c2.take ov = pySlice t (start + cs - ov) (start + cs) := by
            have htake : (pySlice t (start + cs - ov) (computeEnd t cs (start + cs - ov)).1).take ov =
                pySlice t (start + cs - ov) (start + cs) := by
              rw [pySlice, List.take_drop, List.take_take, pySlice]
              congr 2
              omega
            have hnws2 : ∀ ch ∈ (pySlice t (start + cs - ov) (computeEnd t cs (start + cs - ov)).1).take ov,
                isWs ch = false := by
              rw [htake]
              intro ch hch
              obtain ⟨k, hk⟩ := List.mem_iff_getElem?.mp hch
              obtain ⟨hk1, hk2, _⟩ := pySlice_getElem?_some hk
              exact hnw (start + cs - ov + k) ch (by omega) hk2 hk1
            have hovlen : ov ≤ (pySlice t (start + cs - ov) (computeEnd t cs (start + cs - ov)).1).length := by
              rw [pySlice_length]
              omega
            rw [← hc2, stripChars_take_of_nonWs hovlen hnws2, htake]
          rw [hshared1, hshared2]

/-- C3 counterexample: on `"abcdefg"` with `chunk_size = 5`,
`overlap = 3`, the third window (`start = 4`, `end = 9 ≥ 7`) is left
unadjusted, yet the chunks it and its successor produce — `"efg"` and
`"g"` — do not share three characters. -/
theorem chunkLoop_consecutive_overlap_cex :
    chunk_text ("abcdefg".data) 5 3 10 =
      some [("abcde".data), ("cdefg".data), ("efg".data), ("g".data)] ∧
    chunkLoop ("abcdefg".data) 5 3 8 4 = some [("efg".data), ("g".data)] ∧
    (computeEnd ("abcdefg".data) 5 4).2 = false ∧
    lastN 3 ("efg".data) ≠ ("g".data).take 3 := by
  refine ⟨by decide, by decide, by decide, ?_⟩
  decide

/-- Witness for C3 (corrected) at a concrete space-free text. -/
theorem chunkLoop_consecutive_overlap_witness :
    chunkLoop ("abcdefgh".data) 5 2 10 0 =
      some [("abcde".data), ("defgh".data), ("gh".data)] ∧
    lastN 2 ("abcde".data) = ("defgh".data).take 2 := by
  refine ⟨by decide, ?_⟩
  exact chunkLoop_consecutive_overlap ("abcdefgh".data) 5 2 10 0
    ("abcde".data) ("defgh".data) [("gh".data)]
    (by decide) (by decide) (by decide) (by decide) (by decide)

/-- Witness for C10 at a concrete input with untrimmed whitespace. -/
theorem chunk_text_all_chunks_witness :
    chunk_text ("  ab cd efgh  ".data) 6 2 20 =
      some [("ab cd".data), ("d efgh".data), ("gh".data)] ∧
    ∀ c ∈ [("ab cd".data), ("d efgh".data), ("gh".data)],
      c.length ≤ 6 ∧ stripChars c = c := by
  constructor
  · decide
  · exact chunk_text_all_chunks ("  ab cd efgh  ".data) 6 2 20
      [("ab cd".data), ("d efgh".data), ("gh".data)] (by decide)

end StudyMate
